import Mathlib

/-!
Verification of the computational core of the Computational_Physics_Portfolio
repository: the radiating-charge field evaluation (`Erad` in
Electric_Rad_Project.ipynb) and the double-pendulum RK4 integration pipeline
(`dpendulum` / `pcalc` in Double_Pendulum_Project.ipynb), shallowly embedded
over exact real arithmetic.
-/

noncomputable section

/-- A 3-component real vector, the embedding of a vpython `vec`. -/
@[ext]
structure Vec3 where
  x : ℝ
  y : ℝ
  z : ℝ

namespace Vec3

instance : Zero Vec3 := ⟨⟨0, 0, 0⟩⟩
instance : Add Vec3 := ⟨fun a b => ⟨a.x + b.x, a.y + b.y, a.z + b.z⟩⟩
instance : Sub Vec3 := ⟨fun a b => ⟨a.x - b.x, a.y - b.y, a.z - b.z⟩⟩
instance : Neg Vec3 := ⟨fun a => ⟨-a.x, -a.y, -a.z⟩⟩
instance : SMul ℝ Vec3 := ⟨fun s a => ⟨s * a.x, s * a.y, s * a.z⟩⟩

@[simp] theorem zero_x : (0 : Vec3).x = 0 := rfl
@[simp] theorem zero_y : (0 : Vec3).y = 0 := rfl
@[simp] theorem zero_z : (0 : Vec3).z = 0 := rfl
@[simp] theorem add_x (a b : Vec3) : (a + b).x = a.x + b.x := rfl
@[simp] theorem add_y (a b : Vec3) : (a + b).y = a.y + b.y := rfl
@[simp] theorem add_z (a b : Vec3) : (a + b).z = a.z + b.z := rfl
@[simp] theorem sub_x (a b : Vec3) : (a - b).x = a.x - b.x := rfl
@[simp] theorem sub_y (a b : Vec3) : (a - b).y = a.y - b.y := rfl
@[simp] theorem sub_z (a b : Vec3) : (a - b).z = a.z - b.z := rfl
@[simp] theorem neg_x (a : Vec3) : (-a).x = -a.x := rfl
@[simp] theorem neg_y (a : Vec3) : (-a).y = -a.y := rfl
@[simp] theorem neg_z (a : Vec3) : (-a).z = -a.z := rfl
@[simp] theorem smul_x (s : ℝ) (a : Vec3) : (s • a).x = s * a.x := rfl
@[simp] theorem smul_y (s : ℝ) (a : Vec3) : (s • a).y = s * a.y := rfl
@[simp] theorem smul_z (s : ℝ) (a : Vec3) : (s • a).z = s * a.z := rfl

theorem smul_assoc (s u : ℝ) (a : Vec3) : s • u • a = (s * u) • a := by
  ext <;> simp <;> ring

end Vec3

/-- vpython `dot`: the Euclidean inner product of two `vec`s. -/
def dot (a b : Vec3) : ℝ := a.x * b.x + a.y * b.y + a.z * b.z

/-- vpython `mag`: the Euclidean magnitude of a `vec`. -/
def mag (a : Vec3) : ℝ := Real.sqrt (a.x ^ 2 + a.y ^ 2 + a.z ^ 2)

/-- vpython `hat`: the unit vector along `a` (the zero vector when `a = 0`,
matching vpython's `hat(vec(0,0,0)) = vec(0,0,0)` since in Lean `1/0 = 0`). -/
def hat (a : Vec3) : Vec3 := (1 / mag a) • a

theorem mag_nonneg (a : Vec3) : 0 ≤ mag a := Real.sqrt_nonneg _

theorem dot_self_eq_sq_mag (a : Vec3) : dot a a = mag a ^ 2 := by
  unfold dot mag
  rw [Real.sq_sqrt (by positivity)]
  ring

theorem dot_smul_left (s : ℝ) (a b : Vec3) : dot (s • a) b = s * dot a b := by
  unfold dot; simp; ring

theorem dot_smul_right (s : ℝ) (a b : Vec3) : dot a (s • b) = s * dot a b := by
  unfold dot; simp; ring

theorem dot_sub_left (a b c : Vec3) : dot (a - b) c = dot a c - dot b c := by
  unfold dot; simp; ring

theorem mag_smul (s : ℝ) (a : Vec3) : mag (s • a) = |s| * mag a := by
  unfold mag
  simp only [Vec3.smul_x, Vec3.smul_y, Vec3.smul_z]
  rw [show (s * a.x) ^ 2 + (s * a.y) ^ 2 + (s * a.z) ^ 2
        = s ^ 2 * (a.x ^ 2 + a.y ^ 2 + a.z ^ 2) by ring,
      Real.sqrt_mul (by positivity), Real.sqrt_sq_eq_abs]

namespace Erad

/-! Constants of `Erad` (Electric_Rad_Project.ipynb), embedded exactly. -/

def q : ℝ := 1.6e-19
def alpha : ℝ := 7.4e-41
def e0 : ℝ := 8.85e-12
def c : ℝ := 3e8
def a : ℝ := 5.29e-11
def k : ℝ := q ^ 2 / alpha
def m : ℝ := 9.11e-31
def A : ℝ := 4 * a
def oofpez : ℝ := 9e9

def omega : ℝ := Real.sqrt (k / m)

def h : ℝ := 1e-18
def Nsteps : ℕ := 1000

/-- `t = np.arange(0, Nsteps*h, h)`: the i-th simulated instant is `i * h`. -/
def t (i : ℕ) : ℝ := i * h

def Ay : ℝ := -A * omega ^ 2
def Avec : Vec3 := Ay • ⟨0, 1, 0⟩

/-- The field the code evaluates at observation point `r` and source time `τ`
(line `Efield = oofpez * q /(c**2 * mag(r)) * (dot(Avec,hat(r)) * hat(r) -
Avec) * np.cos(omega*(t[i] + (mag(r)/c))) *13**6`), as a function of a
continuous time argument. -/
def EfieldAt (r : Vec3) (τ : ℝ) : Vec3 :=
  (13 ^ 6 : ℝ) • Real.cos (omega * (τ + mag r / c)) •
    (oofpez * q / (c ^ 2 * mag r)) • (dot Avec (hat r) • hat r - Avec)

/-- The field the code evaluates at observation point `r` and step `i`. -/
def Efield (r : Vec3) (i : ℕ) : Vec3 := EfieldAt r (t i)

/-- Modelled from the spec: `field(p, i) = (q / (4π·ε0·c²·|r|)) ·
((A_max · r̂)·r̂ − A_max) · cos(ω·(t_i − |r|/c))`, the reference formula of
§4.5, used only to compare with the code's `Efield`. -/
def specField (r : Vec3) (i : ℕ) : Vec3 :=
  Real.cos (omega * (t i - mag r / c)) •
    (q / (4 * Real.pi * e0 * c ^ 2 * mag r)) • (dot Avec (hat r) • hat r - Avec)

/-- The observation direction `vec(cos(phi)*cos(theta), sin(theta),
sin(phi)*cos(theta))` of the grid-generation loop. -/
def dir (θ φ : ℝ) : Vec3 :=
  ⟨Real.cos φ * Real.cos θ, Real.sin θ, Real.sin φ * Real.cos θ⟩

/-- The grid-generation loops of `Erad`, parametric in the radial data as in
the spec's `ObservationGrid.generate` contract.  Over exact real arithmetic
the while-loop `theta = -pi/2; while theta < pi/2: ...; theta += pi/numTheta`
visits exactly `theta_i = -pi/2 + i*(pi/numTheta)` for `i < numTheta` (since
`-pi/2 + i*pi/numTheta < pi/2 ↔ i < numTheta`), and likewise the `phi` loop
visits `phi_j = j*(2*pi/numPhi)` for `j < numPhi`; the inner radial loop is
already an integer `for n in range(0, N)` with `x` reset to the start radius
at each `(theta, phi)` pair and incremented by `dx`. -/
def genObs (numTheta numPhi N : ℕ) (x0 dx : ℝ) : List Vec3 :=
  (List.range numTheta).flatMap fun i : ℕ =>
    (List.range numPhi).flatMap fun j : ℕ =>
      (List.range N).map fun n : ℕ =>
        (x0 + n * dx) •
          dir (-(Real.pi / 2) + i * (Real.pi / numTheta))
              (j * (2 * Real.pi / numPhi))

/-- The code's radial parameters: `N = 30`, `x = A*5*10**11`, `L = 2*x`,
`dx = L/N`. -/
def x0 : ℝ := A * 5 * 10 ^ 11

def dx : ℝ := 2 * x0 / 30

/-- The observation points `robs` actually built by `Erad(numTheta, numPhi)`. -/
def robs (numTheta numPhi : ℕ) : List Vec3 := genObs numTheta numPhi 30 x0 dx

end Erad

/-! The double-pendulum pipeline (Double_Pendulum_Project.ipynb). -/

/-- The module-level variables `L1, m1, L2, m2` that `dpendulum` reads from
the ambient notebook scope (they are assigned at top level before each call
to `pcalc`). -/
structure PendParams where
  L1 : ℝ
  m1 : ℝ
  L2 : ℝ
  m2 : ℝ

namespace DP

def g : ℝ := 9.8

/-- The derivative function `dpendulum(dep, t)`, made explicit in the four
ambient module-level variables it reads. -/
def dpendulum (P : PendParams) (dep : Fin 4 → ℝ) (_t : ℝ) : Fin 4 → ℝ :=
  let theta1 := dep 0
  let omega1 := dep 1
  let theta2 := dep 2
  let omega2 := dep 3
  let A1 := -g * (2 * P.m1 + P.m2) * Real.sin theta1
              - P.m2 * g * Real.sin (theta1 - 2 * theta2)
  let A2 := -2 * Real.sin (theta1 - theta2) * P.m2 *
              (omega2 ^ 2 * P.L2 + omega1 ^ 2 * P.L1 * Real.cos (theta1 - theta2))
  let A3 := P.L1 * (2 * P.m1 + P.m2 - P.m2 * Real.cos (2 * theta1 - 2 * theta2))
  let B1 := 2 * Real.sin (theta1 - theta2) *
              (omega1 ^ 2 * P.L1 * (P.m1 + P.m2) + g * (P.m1 + P.m2) * Real.cos theta1
                + omega2 ^ 2 * P.L2 * P.m2 * Real.cos (theta1 - theta2))
  let B2 := P.L2 * (2 * P.m1 + P.m2 - P.m2 * Real.cos (2 * theta1 - 2 * theta2))
  ![omega1, (A1 + A2) / A3, omega2, B1 / B2]

end DP

/-- Modelled from the spec: the notebook calls `ode.RK4(dpendulum, data, t, h)`
but the `ode` module is not among the repository sources; its step is
modelled from the spec's §4.1 pseudocode
`k1 = derivFn(state, t); k2 = derivFn(state + (h/2)*k1, t + h/2);
k3 = derivFn(state + (h/2)*k2, t + h/2); k4 = derivFn(state + h*k3, t + h);
nextState = state + (h/6)*(k1 + 2*k2 + 2*k3 + k4)`. -/
def RK4 {n : ℕ} (derivFn : (Fin n → ℝ) → ℝ → (Fin n → ℝ))
    (state : Fin n → ℝ) (t h : ℝ) : Fin n → ℝ :=
  let k1 := derivFn state t
  let k2 := derivFn (state + (h / 2) • k1) (t + h / 2)
  let k3 := derivFn (state + (h / 2) • k2) (t + h / 2)
  let k4 := derivFn (state + h • k3) (t + h)
  state + (h / 6) • (k1 + (2 : ℝ) • k2 + (2 : ℝ) • k3 + k4)

namespace DP

/-- The body of `pcalc`'s time-evolution loop `for n in range(1, Nsteps)`:
`data = ode.RK4(dpendulum, data, t, h); t = t + h; tarr[n] = t; ...arr[n] =
data[...]`, run for `fuel` remaining iterations from the current `(data, t)`. -/
def runAux {n : ℕ} (derivFn : (Fin n → ℝ) → ℝ → (Fin n → ℝ))
    (data : Fin n → ℝ) (t h : ℝ) : ℕ → List (ℝ × (Fin n → ℝ))
  | 0 => []
  | Nat.succ fuel =>
      let data2 := RK4 derivFn data t h
      let t2 := t + h
      (t2, data2) :: runAux derivFn data2 t2 h fuel

/-- The trajectory `pcalc` records: index 0 holds `(t0, initialState)`
(`tarr[0] = t; theta1arr[0] = theta1_0; ...`), then the loop fills indices
`1 .. Nsteps-1`; parametric in the inputs as in the spec's
`TrajectoryRunner.run` contract. -/
def run {n : ℕ} (derivFn : (Fin n → ℝ) → ℝ → (Fin n → ℝ))
    (initialState : Fin n → ℝ) (t0 h : ℝ) (Nsteps : ℕ) :
    List (ℝ × (Fin n → ℝ)) :=
  (t0, initialState) :: runAux derivFn initialState t0 h (Nsteps - 1)

end DP

/-! Helper lemmas about the observation grid. -/

namespace Erad

theorem mag_dir (θ φ : ℝ) : mag (dir θ φ) = 1 := by
  unfold mag dir
  have h1 := Real.sin_sq_add_cos_sq θ
  have h2 := Real.sin_sq_add_cos_sq φ
  rw [show (Real.cos φ * Real.cos θ) ^ 2 + Real.sin θ ^ 2 +
        (Real.sin φ * Real.cos θ) ^ 2 = 1 by nlinarith]
  exact Real.sqrt_one

theorem length_genObs (nT nP N : ℕ) (r0 dr : ℝ) :
    (genObs nT nP N r0 dr).length = nT * nP * N := by
  simp [genObs, List.length_flatMap, Function.comp_def, List.map_const]
  ring

theorem mem_genObs {nT nP N : ℕ} {r0 dr : ℝ} {p : Vec3} :
    p ∈ genObs nT nP N r0 dr ↔
      ∃ i : ℕ, i < nT ∧ ∃ j : ℕ, j < nP ∧ ∃ n : ℕ, n < N ∧
        p = (r0 + n * dr) •
              dir (-(Real.pi / 2) + i * (Real.pi / nT))
                  (j * (2 * Real.pi / nP)) := by
  simp only [genObs, List.mem_flatMap, List.mem_map, List.mem_range]
  constructor
  · rintro ⟨i, hi, j, hj, n, hn, rfl⟩
    exact ⟨i, hi, j, hj, n, hn, rfl⟩
  · rintro ⟨i, hi, j, hj, n, hn, rfl⟩
    exact ⟨i, hi, j, hj, n, hn, rfl⟩

theorem x0_pos : (0 : ℝ) < x0 := by
  unfold x0 A a; norm_num

theorem dx_nonneg : (0 : ℝ) ≤ dx := by
  unfold dx
  have := x0_pos
  positivity

end Erad

/-- C3: `ObservationGrid.generate` with `numTheta = 2`, `numPhi = 2`,
`radialCount = 30` (the code's hardcoded radial count) produces exactly
`2·2·30 = 120` observation points, in the deterministic order of the nested
loops, and each emitted point is `(radialStart + n·radialStep)` times the
unit direction `(cosφ·cosθ, sinθ, sinφ·cosθ)` of its `(θᵢ, φⱼ)` pair. -/
theorem obsGrid_2_2_30_count_and_points :
    (Erad.robs 2 2).length = 120 ∧
    ∀ p : Vec3, p ∈ Erad.robs 2 2 →
      ∃ i : ℕ, i < 2 ∧ ∃ j : ℕ, j < 2 ∧ ∃ n : ℕ, n < 30 ∧
        p = (Erad.x0 + n * Erad.dx) •
              Erad.dir (-(Real.pi / 2) + i * (Real.pi / 2)) (j * Real.pi) ∧
        mag (Erad.dir (-(Real.pi / 2) + i * (Real.pi / 2)) (j * Real.pi)) = 1 ∧
        mag p = Erad.x0 + n * Erad.dx := by
  constructor
  · show (Erad.genObs 2 2 30 Erad.x0 Erad.dx).length = 120
    rw [Erad.length_genObs]
  · intro p hp
    rw [show Erad.robs 2 2 = Erad.genObs 2 2 30 Erad.x0 Erad.dx from rfl,
        Erad.mem_genObs] at hp
    obtain ⟨i, hi, j, hj, n, hn, hp⟩ := hp
    simp only [Nat.cast_ofNat] at hp
    rw [show (2 : ℝ) * Real.pi / 2 = Real.pi by ring] at hp
    have hnn : (0 : ℝ) ≤ Erad.x0 + n * Erad.dx := by
      have h1 := Erad.x0_pos
      have h2 : (0 : ℝ) ≤ (n : ℝ) * Erad.dx :=
        mul_nonneg (Nat.cast_nonneg n) Erad.dx_nonneg
      linarith
    refine ⟨i, hi, j, hj, n, hn, hp, Erad.mag_dir _ _, ?_⟩
    rw [hp, mag_smul, Erad.mag_dir, mul_one, abs_of_nonneg hnn]

/-- Witness for C3 at the concrete grid point `i = j = n = 0`. -/
theorem obsGrid_2_2_30_count_and_points_witness :
    (Erad.x0 • Erad.dir (-(Real.pi / 2)) 0) ∈ Erad.robs 2 2 ∧
    (∃ i : ℕ, i < 2 ∧ ∃ j : ℕ, j < 2 ∧ ∃ n : ℕ, n < 30 ∧
      Erad.x0 • Erad.dir (-(Real.pi / 2)) 0 =
        (Erad.x0 + n * Erad.dx) •
          Erad.dir (-(Real.pi / 2) + i * (Real.pi / 2)) (j * Real.pi) ∧
      mag (Erad.dir (-(Real.pi / 2) + i * (Real.pi / 2)) (j * Real.pi)) = 1 ∧
      mag (Erad.x0 • Erad.dir (-(Real.pi / 2)) 0) = Erad.x0 + n * Erad.dx) := by
  have hm : (Erad.x0 • Erad.dir (-(Real.pi / 2)) 0) ∈ Erad.robs 2 2 := by
    rw [show Erad.robs 2 2 = Erad.genObs 2 2 30 Erad.x0 Erad.dx from rfl,
        Erad.mem_genObs]
    exact ⟨0, by norm_num, 0, by norm_num, 0, by norm_num, by norm_num⟩
  exact ⟨hm, obsGrid_2_2_30_count_and_points.2 _ hm⟩

/-- C9: every observation point the grid-generation loop of `Erad` appends
has magnitude at least the radial start `A·5·10¹¹ > 0` (the radius only
grows by the nonnegative increment `dx` within each radial run), so
`mag(r)` is strictly positive for every point of every grid the code can
produce and the division by `mag(r)` in the field evaluation is never a
division by zero. -/
theorem robs_mag_lower_bound (nT nP : ℕ) (p : Vec3)
    (hp : p ∈ Erad.robs nT nP) :
    Erad.A * 5 * 10 ^ 11 ≤ mag p ∧ 0 < mag p := by
  rw [show Erad.robs nT nP = Erad.genObs nT nP 30 Erad.x0 Erad.dx from rfl,
      Erad.mem_genObs] at hp
  obtain ⟨i, _, j, _, n, _, rfl⟩ := hp
  rw [mag_smul, Erad.mag_dir, mul_one]
  have h1 : Erad.A * 5 * 10 ^ 11 = Erad.x0 := rfl
  have h2 : (0 : ℝ) ≤ (n : ℝ) * Erad.dx :=
    mul_nonneg (Nat.cast_nonneg n) Erad.dx_nonneg
  have h3 := Erad.x0_pos
  rw [abs_of_nonneg (by linarith)]
  constructor <;> [linarith [h1.le]; linarith]

/-- Witness for C9 at the first point of the `numTheta = numPhi = 1` grid. -/
theorem robs_mag_lower_bound_witness :
    (Erad.x0 • Erad.dir (-(Real.pi / 2)) 0) ∈ Erad.robs 1 1 ∧
    (Erad.A * 5 * 10 ^ 11 ≤ mag (Erad.x0 • Erad.dir (-(Real.pi / 2)) 0) ∧
      0 < mag (Erad.x0 • Erad.dir (-(Real.pi / 2)) 0)) := by
  have hm : (Erad.x0 • Erad.dir (-(Real.pi / 2)) 0) ∈ Erad.robs 1 1 := by
    rw [show Erad.robs 1 1 = Erad.genObs 1 1 30 Erad.x0 Erad.dx from rfl,
        Erad.mem_genObs]
    exact ⟨0, by norm_num, 0, by norm_num, 0, by norm_num, by norm_num⟩
  exact ⟨hm, robs_mag_lower_bound 1 1 _ hm⟩

/-! Helper lemmas about the time-evolution loop. -/

namespace DP

theorem length_runAux {n : ℕ} (derivFn : (Fin n → ℝ) → ℝ → (Fin n → ℝ))
    (d : Fin n → ℝ) (t h : ℝ) (fuel : ℕ) :
    (runAux derivFn d t h fuel).length = fuel := by
  induction fuel generalizing d t with
  | zero => rfl
  | succ m ih => simp [runAux, ih]

theorem map_fst_runAux {n : ℕ} (derivFn : (Fin n → ℝ) → ℝ → (Fin n → ℝ))
    (d : Fin n → ℝ) (t h : ℝ) (fuel : ℕ) :
    (runAux derivFn d t h fuel).map Prod.fst =
      (List.range fuel).map fun j : ℕ => t + ((j : ℝ) + 1) * h := by
  induction fuel generalizing d t with
  | zero => rfl
  | succ m ih =>
    rw [runAux]
    simp only [List.map_cons, ih, List.range_succ_eq_map, List.map_map,
      Function.comp_def]
    refine List.cons_eq_cons.mpr ⟨by push_cast; ring, ?_⟩
    refine List.map_congr_left fun j _ => ?_
    push_cast
    ring

end DP

/-- C4: `TrajectoryRunner.run` (the recording loop of `pcalc`, parametric in
its inputs) returns, for every positive `Nsteps`, a trajectory of exactly
`Nsteps` entries whose entry 0 is `(t0, initialState)` and whose time at
index `n` is `t0 + n·h`; in particular `Nsteps = 1` gives the one-element
trajectory holding exactly the initial state at `t0`. -/
theorem trajectory_run_shape {n : ℕ} (derivFn : (Fin n → ℝ) → ℝ → (Fin n → ℝ))
    (initialState : Fin n → ℝ) (t0 h : ℝ) (Nsteps : ℕ) (hN : 0 < Nsteps) :
    (DP.run derivFn initialState t0 h Nsteps).length = Nsteps ∧
    (DP.run derivFn initialState t0 h Nsteps).head? = some (t0, initialState) ∧
    (DP.run derivFn initialState t0 h Nsteps).map Prod.fst =
      (List.range Nsteps).map fun j : ℕ => t0 + (j : ℝ) * h := by
  obtain ⟨m, rfl⟩ : ∃ m, Nsteps = m + 1 :=
    ⟨Nsteps - 1, (Nat.succ_pred_eq_of_pos hN).symm⟩
  unfold DP.run
  refine ⟨by simp [DP.length_runAux], rfl, ?_⟩
  simp only [Nat.add_sub_cancel, List.map_cons, DP.map_fst_runAux,
    List.range_succ_eq_map, List.map_map, Function.comp_def]
  refine List.cons_eq_cons.mpr ⟨by push_cast; ring, ?_⟩
  refine List.map_congr_left fun j _ => ?_
  push_cast
  ring

/-- Witness for C4: `Nsteps = 1` with the double-pendulum derivative at the
notebook's first parameter set and initial state returns exactly the initial
state at `t0 = 0`. -/
theorem trajectory_run_shape_witness :
    (DP.run (DP.dpendulum ⟨4, 8, 4, 2⟩) ![Real.pi / 2, 0, 0, 0] 0 1e-4 1).length = 1 ∧
    (DP.run (DP.dpendulum ⟨4, 8, 4, 2⟩) ![Real.pi / 2, 0, 0, 0] 0 1e-4 1).head? =
      some (0, ![Real.pi / 2, 0, 0, 0]) ∧
    (DP.run (DP.dpendulum ⟨4, 8, 4, 2⟩) ![Real.pi / 2, 0, 0, 0] 0 1e-4 1).map Prod.fst =
      (List.range 1).map fun j : ℕ => 0 + (j : ℝ) * 1e-4 :=
  trajectory_run_shape (DP.dpendulum ⟨4, 8, 4, 2⟩) ![Real.pi / 2, 0, 0, 0] 0 1e-4 1
    (by norm_num)

/-- C5: `RK4Integrator.step` computes exactly the classical 4-stage
4th-order Runge-Kutta update
`state + (h/6)·(k1 + 2·k2 + 2·k3 + k4)` with the four stages evaluated at
the prescribed inputs. -/
theorem RK4_classical_scheme {n : ℕ} (derivFn : (Fin n → ℝ) → ℝ → (Fin n → ℝ))
    (state : Fin n → ℝ) (t h : ℝ) (hh : 0 < h) :
    RK4 derivFn state t h =
      state + (h / 6) •
        (derivFn state t
          + (2 : ℝ) • derivFn (state + (h / 2) • derivFn state t) (t + h / 2)
          + (2 : ℝ) • derivFn
              (state + (h / 2) •
                derivFn (state + (h / 2) • derivFn state t) (t + h / 2))
              (t + h / 2)
          + derivFn
              (state + h •
                derivFn
                  (state + (h / 2) •
                    derivFn (state + (h / 2) • derivFn state t) (t + h / 2))
                  (t + h / 2))
              (t + h)) := rfl

/-- Witness for C5 with the constant derivative `fun _ _ => ![1]` at
`state = ![0]`, `t = 0`, `h = 2`. -/
theorem RK4_classical_scheme_witness :
    (0 : ℝ) < 2 ∧
    RK4 (fun _ _ => ![(1 : ℝ)]) ![(0 : ℝ)] 0 2 =
      ![(0 : ℝ)] + ((2 : ℝ) / 6) •
        (![(1 : ℝ)] + (2 : ℝ) • ![(1 : ℝ)] + (2 : ℝ) • ![(1 : ℝ)] + ![(1 : ℝ)]) :=
  ⟨by norm_num,
    RK4_classical_scheme (fun _ _ => ![(1 : ℝ)]) ![(0 : ℝ)] 0 2 (by norm_num)⟩

/-- C10: for a fixed observation point `r`, every field vector the code
computes is a real scalar multiple of the single fixed vector
`(A_max·r̂)·r̂ − A_max` (the acceleration amplitude `Avec = −A·ω²·ŷ` is a
constant and only the cosine scalar varies with the step index). -/
theorem Efield_fixed_direction (r : Vec3) (i : ℕ) :
    ∃ s : ℝ,
      Erad.Efield r i = s • (dot Erad.Avec (hat r) • hat r - Erad.Avec) := by
  refine ⟨13 ^ 6 * Real.cos (Erad.omega * (Erad.t i + mag r / Erad.c)) *
    (Erad.oofpez * Erad.q / (Erad.c ^ 2 * mag r)), ?_⟩
  unfold Erad.Efield Erad.EfieldAt
  rw [Vec3.smul_assoc, Vec3.smul_assoc]

/-- C8: the computed field vector is transverse to the line of sight:
`field(p, i) · r = 0` whenever `|r| > 0`, because
`(A_max·r̂)·r̂ − A_max` removes the component of `A_max` parallel to `r̂`. -/
theorem Efield_transverse (r : Vec3) (i : ℕ) (hr : 0 < mag r) :
    dot (Erad.Efield r i) r = 0 := by
  have hm : mag r ≠ 0 := ne_of_gt hr
  have key : dot (dot Erad.Avec (hat r) • hat r - Erad.Avec) r = 0 := by
    rw [dot_sub_left, dot_smul_left,
        show hat r = (1 / mag r) • r from rfl, dot_smul_right, dot_smul_left,
        dot_self_eq_sq_mag]
    field_simp
    ring
  unfold Erad.Efield Erad.EfieldAt
  rw [dot_smul_left, dot_smul_left, dot_smul_left, key, mul_zero, mul_zero,
      mul_zero]

/-- Witness for C8 at the observation point `(1, 0, 0)` and step 0. -/
theorem Efield_transverse_witness :
    0 < mag ⟨1, 0, 0⟩ ∧ dot (Erad.Efield ⟨1, 0, 0⟩ 0) ⟨1, 0, 0⟩ = 0 := by
  have h1 : mag ⟨1, 0, 0⟩ = 1 := by
    unfold mag
    norm_num
  exact ⟨by rw [h1]; norm_num, Efield_transverse ⟨1, 0, 0⟩ 0 (by rw [h1]; norm_num)⟩

/-- C6 counterexample: the derivative function `dpendulum` is not a pure
function of its explicit arguments `(dep, t)` alone — with identical
explicit inputs but the two ambient module-level parameter assignments the
notebook actually uses (`L1=4, m1=8, L2=4, m2=2` and `L1=4, m1=2, L2=4,
m2=8`), its outputs differ (component 1 is `1/5` in the first ambient state
and `4/5` in the second). -/
theorem dpendulum_reads_ambient_globals :
    DP.dpendulum ⟨4, 8, 4, 2⟩ ![0, 0, Real.pi / 2, 1] 0 ≠
      DP.dpendulum ⟨4, 2, 4, 8⟩ ![0, 0, Real.pi / 2, 1] 0 := by
  have h2 : (2 : ℝ) * (Real.pi / 2) = Real.pi := by ring
  have e1 : DP.dpendulum ⟨4, 8, 4, 2⟩ ![0, 0, Real.pi / 2, 1] 0 1 = 1 / 5 := by
    simp [DP.dpendulum, DP.g, h2]
    norm_num
  have e2 : DP.dpendulum ⟨4, 2, 4, 8⟩ ![0, 0, Real.pi / 2, 1] 0 1 = 4 / 5 := by
    simp [DP.dpendulum, DP.g, h2]
    norm_num
  intro h
  have h1 := congrFun h 1
  rw [e1, e2] at h1
  norm_num at h1

/-- C6 amended: the integration step is a pure function of its explicit
arguments together with the four ambient module-level parameters: two runs
whose ambient `(L1, m1, L2, m2)` agree produce identical `RK4` outputs on
identical explicit inputs. -/
theorem rk4_pipeline_determinism (P1 P2 : PendParams)
    (hL1 : P1.L1 = P2.L1) (hm1 : P1.m1 = P2.m1)
    (hL2 : P1.L2 = P2.L2) (hm2 : P1.m2 = P2.m2)
    (s : Fin 4 → ℝ) (t h : ℝ) :
    RK4 (DP.dpendulum P1) s t h = RK4 (DP.dpendulum P2) s t h := by
  obtain ⟨a1, b1, c1, d1⟩ := P1
  obtain ⟨a2, b2, c2, d2⟩ := P2
  cases hL1
  cases hm1
  cases hL2
  cases hm2
  rfl

/-- Witness for the amended C6 with two syntactically different but equal
ambient parameter records. -/
theorem rk4_pipeline_determinism_witness :
    RK4 (DP.dpendulum ⟨4, 8, 4, 2⟩) ![Real.pi / 2, 0, 0, 0] 0 1e-4 =
      RK4 (DP.dpendulum ⟨2 + 2, 4 + 4, 2 + 2, 1 + 1⟩) ![Real.pi / 2, 0, 0, 0] 0 1e-4 :=
  rk4_pipeline_determinism ⟨4, 8, 4, 2⟩ ⟨2 + 2, 4 + 4, 2 + 2, 1 + 1⟩
    (by norm_num) (by norm_num) (by norm_num) (by norm_num)
    ![Real.pi / 2, 0, 0, 0] 0 1e-4

/-- C7 counterexample: the grid generation performs no validation at all — a
parameter set whose radial start is `0` yields the origin (a zero-magnitude
observation point) as a generated point, returned normally in the point
list rather than rejected with a `DivisionByZero` error; only the field
evaluation itself divides by `mag r`. -/
theorem genObs_no_origin_rejection :
    (0 : Vec3) ∈ Erad.genObs 1 1 1 0 1 ∧ mag (0 : Vec3) = 0 := by
  constructor
  · rw [Erad.mem_genObs]
    refine ⟨0, one_pos, 0, one_pos, 0, one_pos, ?_⟩
    ext <;> simp
  · unfold mag
    norm_num

/-- C7 amended: grid generation never raises and never filters — for every
parameter set it returns exactly `numTheta·numPhi·radialCount` points, and
with radial start `0` the returned grid contains the origin, so a
zero-magnitude position vector passes generation and is only met by the
division by `mag r` at field-evaluation time. -/
theorem genObs_never_rejects :
    (∀ nT nP N : ℕ, ∀ r0 dr : ℝ,
        (Erad.genObs nT nP N r0 dr).length = nT * nP * N) ∧
      (0 : Vec3) ∈ Erad.genObs 1 1 1 0 1 := by
  refine ⟨fun nT nP N r0 dr => Erad.length_genObs nT nP N r0 dr, ?_⟩
  rw [Erad.mem_genObs]
  refine ⟨0, one_pos, 0, one_pos, 0, one_pos, ?_⟩
  ext <;> simp

/-! Helper facts for comparing the code's field with the spec formula. -/

namespace Erad

theorem c_pos : (0 : ℝ) < c := by unfold c; norm_num

theorem omega_pos : (0 : ℝ) < omega := by
  apply Real.sqrt_pos.mpr
  unfold k m q alpha
  norm_num

theorem A_pos : (0 : ℝ) < A := by unfold A a; norm_num

end Erad

theorem mag_xaxis (ρ : ℝ) (h : 0 ≤ ρ) : mag ⟨ρ, 0, 0⟩ = ρ := by
  unfold mag
  simp [Real.sqrt_sq h]

theorem hat_xaxis (ρ : ℝ) (h : 0 < ρ) : hat ⟨ρ, 0, 0⟩ = ⟨1, 0, 0⟩ := by
  unfold hat
  rw [mag_xaxis ρ h.le]
  ext <;> simp
  field_simp

theorem dot_Avec_xunit : dot Erad.Avec ⟨1, 0, 0⟩ = 0 := by
  unfold dot Erad.Avec
  simp

/-- C1 counterexample: at the observation point `(c·π/ω, 0, 0)` and step 0
(where both phase conventions give `cos = −1`, so only the prefactors are
compared) the field the code computes differs from the spec formula
`(q / (4π·ε0·c²·|r|))·((A_max·r̂)·r̂ − A_max)·cos(ω·(t_i − |r|/c))`: the code
multiplies by the extra visualization factor `13⁶` and uses the constant
`oofpez = 9·10⁹` in place of `1/(4π·ε0)`. -/
theorem Efield_deviates_from_spec_formula :
    Erad.Efield ⟨Erad.c * Real.pi / Erad.omega, 0, 0⟩ 0 ≠
      Erad.specField ⟨Erad.c * Real.pi / Erad.omega, 0, 0⟩ 0 := by
  have hω := Erad.omega_pos
  have hc := Erad.c_pos
  have hπ := Real.pi_pos
  have hρpos : 0 < Erad.c * Real.pi / Erad.omega :=
    div_pos (mul_pos hc hπ) hω
  have hmag : mag ⟨Erad.c * Real.pi / Erad.omega, 0, 0⟩ =
      Erad.c * Real.pi / Erad.omega := mag_xaxis _ hρpos.le
  have hhat : hat ⟨Erad.c * Real.pi / Erad.omega, 0, 0⟩ = ⟨1, 0, 0⟩ :=
    hat_xaxis _ hρpos
  have harg1 : Erad.omega * (Erad.t 0 +
      mag ⟨Erad.c * Real.pi / Erad.omega, 0, 0⟩ / Erad.c) = Real.pi := by
    rw [hmag]
    unfold Erad.t
    push_cast
    field_simp
    ring
  have harg2 : Erad.omega * (Erad.t 0 -
      mag ⟨Erad.c * Real.pi / Erad.omega, 0, 0⟩ / Erad.c) = -Real.pi := by
    rw [hmag]
    unfold Erad.t
    push_cast
    field_simp
    ring
  intro heq
  have hy := congrArg Vec3.y heq
  unfold Erad.Efield Erad.EfieldAt Erad.specField at hy
  rw [harg1, harg2, Real.cos_neg, Real.cos_pi, hhat, dot_Avec_xunit, hmag] at hy
  simp [Erad.Avec] at hy
  have hcne : Erad.c ≠ 0 := ne_of_gt hc
  have hωne : Erad.omega ≠ 0 := ne_of_gt hω
  have hπne : Real.pi ≠ 0 := ne_of_gt hπ
  have hA := Erad.A_pos
  unfold Erad.Ay at hy
  unfold Erad.oofpez Erad.q Erad.e0 Erad.A Erad.a Erad.c at hy
  field_simp at hy
  norm_num at hy
  nlinarith [hy, mul_pos hω (mul_pos hω hω),
    mul_pos (mul_pos hω (mul_pos hω hω)) (mul_pos hπ hπ), Real.pi_gt_three,
    hπ, mul_pos (mul_pos hω (mul_pos hω hω)) hπ]

/-- C1 amended: for every observation point `r` and step `i`, the code's
field evaluation returns exactly
`(oofpez·q / (c²·|r|)) · ((A_max·r̂)·r̂ − A_max) · cos(ω·(t_i + |r|/c)) · 13⁶`
— the spec formula with `oofpez = 9·10⁹` in place of `1/(4π·ε0)`, an
advanced phase `t_i + |r|/c` in place of the retarded `t_i − |r|/c`, and
the extra visualization scale factor `13⁶`. -/
theorem Efield_closed_form (r : Vec3) (i : ℕ) :
    Erad.Efield r i =
      (Erad.oofpez * Erad.q / (Erad.c ^ 2 * mag r) *
        Real.cos (Erad.omega * (Erad.t i + mag r / Erad.c)) * 13 ^ 6) •
        (dot Erad.Avec (hat r) • hat r - Erad.Avec) := by
  unfold Erad.Efield Erad.EfieldAt
  rw [Vec3.smul_assoc, Vec3.smul_assoc]
  congr 1
  ring


/-- C2 (code bug): with `p1 = (3cπ/(4ω), 0, 0)` and `p2 = (cπ/ω, 0, 0)` on
the same direction with `|p1| < |p2|`, at step 0 the field at `p2` does
NOT equal the `1/|r|`-rescaled field computed at `p1` at the earlier source
time `t_0 − (|p2|−|p1|)/c`: the code's phase is `ω·(t_i + |r|/c)`, so the
farther point corresponds to a LATER source time, while the notebook's own
derivation states `cos(ω(t − r/c))` (retardation). -/
theorem retardation_violated :
    mag ⟨3 * (Erad.c * Real.pi) / (4 * Erad.omega), 0, 0⟩ <
      mag ⟨Erad.c * Real.pi / Erad.omega, 0, 0⟩ ∧
    Erad.Efield ⟨Erad.c * Real.pi / Erad.omega, 0, 0⟩ 0 ≠
      (mag ⟨3 * (Erad.c * Real.pi) / (4 * Erad.omega), 0, 0⟩ /
        mag ⟨Erad.c * Real.pi / Erad.omega, 0, 0⟩) •
        Erad.EfieldAt ⟨3 * (Erad.c * Real.pi) / (4 * Erad.omega), 0, 0⟩
          (Erad.t 0 - (mag ⟨Erad.c * Real.pi / Erad.omega, 0, 0⟩ -
            mag ⟨3 * (Erad.c * Real.pi) / (4 * Erad.omega), 0, 0⟩) / Erad.c) := by
  have hω := Erad.omega_pos
  have hc := Erad.c_pos
  have hπ := Real.pi_pos
  have hρ1pos : 0 < 3 * (Erad.c * Real.pi) / (4 * Erad.omega) := by positivity
  have hρ2pos : 0 < Erad.c * Real.pi / Erad.omega := div_pos (mul_pos hc hπ) hω
  have hmag1 : mag ⟨3 * (Erad.c * Real.pi) / (4 * Erad.omega), 0, 0⟩ =
      3 * (Erad.c * Real.pi) / (4 * Erad.omega) := mag_xaxis _ hρ1pos.le
  have hmag2 : mag ⟨Erad.c * Real.pi / Erad.omega, 0, 0⟩ =
      Erad.c * Real.pi / Erad.omega := mag_xaxis _ hρ2pos.le
  have hhat2 : hat ⟨Erad.c * Real.pi / Erad.omega, 0, 0⟩ = ⟨1, 0, 0⟩ :=
    hat_xaxis _ hρ2pos
  have hcne : Erad.c ≠ 0 := ne_of_gt hc
  have hωne : Erad.omega ≠ 0 := ne_of_gt hω
  have harg1 : Erad.omega * (Erad.t 0 +
      mag ⟨Erad.c * Real.pi / Erad.omega, 0, 0⟩ / Erad.c) = Real.pi := by
    rw [hmag2]
    unfold Erad.t
    push_cast
    field_simp
    ring
  have harg3 : Erad.omega * ((Erad.t 0 -
      (mag ⟨Erad.c * Real.pi / Erad.omega, 0, 0⟩ -
        mag ⟨3 * (Erad.c * Real.pi) / (4 * Erad.omega), 0, 0⟩) / Erad.c) +
      mag ⟨3 * (Erad.c * Real.pi) / (4 * Erad.omega), 0, 0⟩ / Erad.c) =
      Real.pi / 2 := by
    rw [hmag1, hmag2]
    unfold Erad.t
    push_cast
    field_simp
    ring
  have hzero : Erad.EfieldAt ⟨3 * (Erad.c * Real.pi) / (4 * Erad.omega), 0, 0⟩
      (Erad.t 0 - (mag ⟨Erad.c * Real.pi / Erad.omega, 0, 0⟩ -
        mag ⟨3 * (Erad.c * Real.pi) / (4 * Erad.omega), 0, 0⟩) / Erad.c) = 0 := by
    unfold Erad.EfieldAt
    rw [harg3, Real.cos_pi_div_two]
    ext <;> simp
  constructor
  · rw [hmag1, hmag2, div_lt_div_iff₀ (by positivity) hω]
    nlinarith [mul_pos (mul_pos hc hπ) hω]
  · intro heq
    have hy := congrArg Vec3.y heq
    rw [hzero] at hy
    simp only [Vec3.smul_y, Vec3.zero_y, mul_zero] at hy
    unfold Erad.Efield Erad.EfieldAt at hy
    rw [harg1, Real.cos_pi, hhat2, dot_Avec_xunit, hmag2] at hy
    have hAy : Erad.Ay ≠ 0 := by
      unfold Erad.Ay
      have h1 := Erad.A_pos
      have h2 : (0 : ℝ) < Erad.omega ^ 2 := by positivity
      nlinarith
    simp [Erad.Avec, Erad.oofpez, Erad.q, hcne, hωne, Real.pi_ne_zero, hAy] at hy
    norm_num at hy

end
